import Mathlib

set_option linter.unusedVariables false

/-!
Verification of the `iter_fixed` crate: a length-tagged iterator wrapper.

The embedding is shallow: a Rust pull iterator is modelled by the list of
elements it will yield (in order), a fixed-size array `[T; N]` by a list of
length `N`, and a reference into an array by the index it points to.
Definitions taken from `src/into.rs` cite their lines; parts of the crate
declared in `lib.rs` (which only tests and callers of it are available for)
are modelled from the spec and say so in their doc comments.
-/

namespace IterFixed

variable {T R : Type} {N N1 N2 : Nat}

/-- A Rust fixed-size array `[T; N]`: the list of its elements together with
the proof that there are exactly `N` of them. -/
structure RArray (T : Type) (N : Nat) where
  data : List T
  len : data.length = N

/-- Element `i` of a fixed-size array (`a[i]` in Rust). -/
def RArray.get (a : RArray T N) (i : Fin N) : T :=
  a.data.get (Fin.cast a.len.symm i)

/-- Modelled from the spec: the length-tagged wrapper `IteratorFixed<I, N>`
(declared in `lib.rs`, which is not under `src/`; `src/into.rs` constructs
it). The inner iterator `I` is embedded as the list of the elements it will
yield, in order. -/
structure IteratorFixed (T : Type) (N : Nat) where
  inner : List T

/-- The exactness contract of the wrapper (stated in the safety comment of
`IntoIteratorFixed`, src/into.rs lines 12–13): pulling the inner iterator
until exhaustion yields exactly `N` elements — no more, no fewer. -/
def IteratorFixed.invariant (it : IteratorFixed T N) : Prop :=
  it.inner.length = N

/-- Modelled from the spec: the trusted constructor `IteratorFixed::from_iter`
(`lib.rs`, not under `src/`), the single point where the exactly-`N` contract
is asserted rather than checked: it wraps the given producer unchanged. -/
def IteratorFixed.from_iter (l : List T) : IteratorFixed T N :=
  ⟨l⟩

/-- `IntoIteratorFixed for IteratorFixed<I, N>` (src/into.rs lines 36–58):
a no-op, the method returns `self`. -/
def IteratorFixed.into_iter_fixed (it : IteratorFixed T N) : IteratorFixed T N :=
  it

/-- `IntoIteratorFixed for [T; N]` (src/into.rs lines 60–80):
`IteratorFixed::from_iter` applied to the array's owned iterator
`array::IntoIter`, which yields the `N` elements in index order. -/
def RArray.into_iter_fixed (a : RArray T N) : IteratorFixed T N :=
  IteratorFixed.from_iter a.data

/-- `IntoIteratorFixed for &'a [T; N]` (src/into.rs lines 82–103):
`IteratorFixed::from_iter` applied to `slice::Iter`, which yields a shared
reference to each element in index order; a shared reference into the array
is embedded as the index `Fin N` it points to. -/
def RArray.into_iter_fixed_ref (a : RArray T N) : IteratorFixed (Fin N) N :=
  IteratorFixed.from_iter (List.finRange N)

/-- `IntoIteratorFixed for &'a mut [T; N]` (src/into.rs lines 105–134):
`IteratorFixed::from_iter` applied to `slice::IterMut`, which yields a
mutable reference to each element in index order; a mutable reference into
the array is embedded as the index `Fin N` it points to. -/
def RArray.into_iter_fixed_mut (a : RArray T N) : IteratorFixed (Fin N) N :=
  IteratorFixed.from_iter (List.finRange N)

/-- `core::iter::Repeat<T>`: the endless repetition of one value. -/
structure Repeat (T : Type) where
  val : T

/-- `IntoIteratorFixed for iter::Repeat<T>` (src/into.rs lines 136–157):
`IteratorFixed::from_iter(self.take(N))`; `repeat(v).take(N)` yields `v`
exactly `N` times, i.e. `List.replicate N v`. -/
def Repeat.into_iter_fixed (r : Repeat T) (N : Nat) : IteratorFixed T N :=
  IteratorFixed.from_iter (List.replicate N r.val)

/-- Modelled from the spec: the `map` combinator (`lib.rs`, not under
`src/`) — element-wise transform, count unchanged. -/
def IteratorFixed.map (it : IteratorFixed T N) (f : T → R) : IteratorFixed R N :=
  ⟨it.inner.map f⟩

/-- Modelled from the spec: the `zip` combinator (`lib.rs`, not under
`src/`) — pairs the elements of two wrappers sharing the same tag `N`
positionally. Its Rust argument is anything convertible to a wrapper;
callers below convert explicitly via the `IntoIteratorFixed` instances. -/
def IteratorFixed.zip (it1 : IteratorFixed T N) (it2 : IteratorFixed R N) :
    IteratorFixed (T × R) N :=
  ⟨it1.inner.zip it2.inner⟩

/-- Modelled from the spec: the `chain` combinator (`lib.rs`, not under
`src/`) — the first producer is exhausted before the second begins; the tag
is `N1 + N2`. -/
def IteratorFixed.chain (it1 : IteratorFixed T N1) (it2 : IteratorFixed T N2) :
    IteratorFixed T (N1 + N2) :=
  ⟨it1.inner ++ it2.inner⟩

/-- Modelled from the spec: the iterator produced by `step_by`
(`core::iter::StepBy`): yield the current element, then skip `s - 1`,
repeatedly. The counter argument holds the skips still owed before the next
yielded element (`0` initially, so the first element is kept). -/
def stepByAux (s : Nat) : Nat → List T → List T
  | _, [] => []
  | 0, x :: xs => x :: stepByAux s (s - 1) xs
  | k + 1, _ :: xs => stepByAux s k xs

/-- Modelled from the spec: the `step_by<S>` combinator (`lib.rs`, not under
`src/`) — keeps every `s`-th element starting at the first; the tag is
`⌈N / s⌉`, written `(N + s - 1) / s`. -/
def IteratorFixed.step_by (it : IteratorFixed T N) (s : Nat) :
    IteratorFixed T ((N + s - 1) / s) :=
  ⟨stepByAux s 0 it.inner⟩

/-- Modelled from the spec: terminal collection (`FromIteratorFixed`,
`lib.rs`, not under `src/`) — pulls every element of the inner producer in
order and writes them into the container slots `0..N`, performing no runtime
comparison against `N`; the container's contents are the pulled sequence
itself. -/
def IteratorFixed.collect (it : IteratorFixed T N) : List T :=
  it.inner

/-- Modelled from the spec: running `map` (`lib.rs`, not under `src/`) over
the mutable-reference wrapper of `&mut [T; N]` with a closure that both
writes through each reference and returns a value; the closure is embedded
as `f : T → R × T` (value returned, value stored). Each reference is visited
once, so every closure call reads the element's original value; the result
is the wrapper of returned values together with the array state after all
writes. -/
def RArray.map_mut (a : RArray T N) (f : T → R × T) :
    IteratorFixed R N × RArray T N :=
  (⟨(a.into_iter_fixed_mut).inner.map fun i => (f (a.get i)).1⟩,
   ⟨(a.into_iter_fixed_mut).inner.map fun i => (f (a.get i)).2, by
      simp [RArray.into_iter_fixed_mut, IteratorFixed.from_iter]⟩)

/-- Consuming the wrapper of shared references produced by `&[T; N]` by
dereferencing and collecting, with the borrowed array carried through as
explicit state: shared references only read, so the array component passes
through untouched. -/
def RArray.collect_refs (a : RArray T N) : List T × RArray T N :=
  (((a.into_iter_fixed_ref).map a.get).collect, a)

/-- Dereferencing the indices `0..N-1` in order reads back exactly the
array's contents. -/
theorem RArray.map_get_finRange (a : RArray T N) :
    (List.finRange N).map a.get = a.data := by
  obtain ⟨l, hl⟩ := a
  subst hl
  exact List.finRange_map_get l

/-- Element `i` of `stepByAux s k l` is element `k + i * s` of `l`. -/
theorem stepByAux_getElem? (s : Nat) (hs : 1 ≤ s) (l : List T) (k i : Nat) :
    (stepByAux s k l)[i]? = l[k + i * s]? := by
  induction l generalizing k i with
  | nil => simp [stepByAux]
  | cons x xs ih =>
    cases k with
    | zero =>
      have heq : stepByAux s 0 (x :: xs) = x :: stepByAux s (s - 1) xs := by
        simp only [stepByAux]
      cases i with
      | zero => simp [heq]
      | succ i =>
        rw [heq, List.getElem?_cons_succ, ih]
        have h2 : 0 + (i + 1) * s = ((s - 1) + i * s) + 1 := by
          rw [Nat.add_mul]
          omega
        rw [h2, List.getElem?_cons_succ]
    | succ k =>
      have heq : stepByAux s (k + 1) (x :: xs) = stepByAux s k xs := by
        simp only [stepByAux]
      rw [heq, ih]
      have h2 : (k + 1) + i * s = (k + i * s) + 1 := by omega
      rw [h2, List.getElem?_cons_succ]

/-- `stepByAux s k l` yields `⌈(length l - k) / s⌉` elements. -/
theorem stepByAux_length (s : Nat) (hs : 1 ≤ s) (l : List T) (k : Nat) :
    (stepByAux s k l).length = (l.length - k + s - 1) / s := by
  induction l generalizing k with
  | nil =>
    simp only [stepByAux, List.length_nil]
    rw [Nat.div_eq_of_lt (by omega)]
  | cons x xs ih =>
    cases k with
    | zero =>
      have heq : stepByAux s 0 (x :: xs) = x :: stepByAux s (s - 1) xs := by
        simp only [stepByAux]
      rw [heq, List.length_cons, ih (s - 1), List.length_cons]
      rcases Nat.lt_or_ge xs.length (s - 1) with h | h
      · rw [Nat.sub_eq_zero_of_le (Nat.le_of_lt h)]
        rw [Nat.div_eq_of_lt (by omega)]
        have h3 : xs.length + 1 - 0 + s - 1 = xs.length + s := by omega
        rw [h3, Nat.add_div_right _ (by omega), Nat.div_eq_of_lt (by omega)]
      · have h1 : xs.length - (s - 1) + s - 1 = xs.length := by omega
        have h3 : xs.length + 1 - 0 + s - 1 = xs.length + s := by omega
        rw [h1, h3, Nat.add_div_right _ (by omega)]
    | succ k =>
      have heq : stepByAux s (k + 1) (x :: xs) = stepByAux s k xs := by
        simp only [stepByAux]
      rw [heq, ih k, List.length_cons]
      have h2 : xs.length - k = xs.length + 1 - (k + 1) := by omega
      rw [h2]

/-- Every pair of `zip l (replicate n v)` has `v` as second component. -/
theorem zip_replicate_snd {v : R} (l : List T) (n : Nat) (p : T × R)
    (hp : p ∈ l.zip (List.replicate n v)) : p.2 = v := by
  induction l generalizing n with
  | nil => simp at hp
  | cons x xs ih =>
    cases n with
    | zero => simp at hp
    | succ n =>
      rw [List.replicate_succ, List.zip_cons_cons] at hp
      rcases List.mem_cons.mp hp with h | h
      · rw [h]
      · exact ih n h

/-- C1: every safe into-conversion — owned array `[T; N]`, borrowed array
`&[T; N]`, mutably borrowed array `&mut [T; N]`, and `iter::repeat` bounded
to `N` — produces a wrapper whose inner iterator, pulled until exhaustion,
yields exactly `N` elements, no more, no fewer. -/
theorem safe_conversions_establish_invariant (T : Type) (N : Nat)
    (a : RArray T N) (v : T) :
    (RArray.into_iter_fixed a).invariant ∧
    (RArray.into_iter_fixed_ref a).invariant ∧
    (RArray.into_iter_fixed_mut a).invariant ∧
    ((Repeat.mk v).into_iter_fixed N).invariant := by
  refine ⟨?_, ?_, ?_, ?_⟩ <;>
    simp [IteratorFixed.invariant, RArray.into_iter_fixed, RArray.into_iter_fixed_ref,
      RArray.into_iter_fixed_mut, Repeat.into_iter_fixed, IteratorFixed.from_iter, a.len]

/-- C2: collecting a wrapper whose exactly-`N` invariant holds is total and
deterministic — the container receives the whole pulled sequence, of length
exactly `N`, with no truncation, padding, or length comparison against `N`. -/
theorem collect_total_exact (T : Type) (N : Nat) (w : IteratorFixed T N)
    (h : w.invariant) :
    w.collect.length = N ∧ w.collect = w.inner :=
  ⟨h, rfl⟩

/-- Witness for C2 at the wrapper of `[3, 1, 2]`. -/
theorem collect_total_exact_witness :
    (IteratorFixed.from_iter [3, 1, 2] : IteratorFixed Nat 3).collect.length = 3 :=
  (collect_total_exact Nat 3 (IteratorFixed.from_iter [3, 1, 2]) (by rfl)).1

/-- C3: converting an array `[T; N]` into the wrapper, optionally applying
`map` with the identity function, and collecting back into a fixed-capacity
array of length `N` yields the original sequence unchanged. -/
theorem roundtrip_identity (T : Type) (N : Nat) (a : RArray T N) :
    ((RArray.into_iter_fixed a).map id).collect = a.data ∧
    (RArray.into_iter_fixed a).collect = a.data := by
  constructor
  · simp [IteratorFixed.map, IteratorFixed.collect, RArray.into_iter_fixed,
      IteratorFixed.from_iter]
  · rfl

/-- C4: the wrapper's own into-conversion is the identity: `into_iter_fixed`
on an `IteratorFixed` returns it unchanged. -/
theorem into_iter_fixed_identity (T : Type) (N : Nat) (w : IteratorFixed T N) :
    w.into_iter_fixed = w :=
  rfl

/-- C5: `zip` of two wrappers of equal tag `N`, collected, has length `N`
and pairs elements positionally; and in particular
`zip([1,2,3,4], [4,3,2,1])` mapped by addition collects to `[5,5,5,5]`. -/
theorem zip_pairs_positionally (T R : Type) (N : Nat)
    (w1 : IteratorFixed T N) (w2 : IteratorFixed R N)
    (h1 : w1.invariant) (h2 : w2.invariant) :
    ((w1.zip w2).collect.length = N ∧
      ∀ (i : Nat) (x : T) (y : R), w1.inner[i]? = some x → w2.inner[i]? = some y →
        (w1.zip w2).collect[i]? = some (x, y)) ∧
    (((RArray.into_iter_fixed (⟨[1, 2, 3, 4], rfl⟩ : RArray Nat 4)).zip
        (RArray.into_iter_fixed (⟨[4, 3, 2, 1], rfl⟩ : RArray Nat 4))).map
        (fun p => p.1 + p.2)).collect = [5, 5, 5, 5] := by
  have h1l : w1.inner.length = N := h1
  have h2l : w2.inner.length = N := h2
  refine ⟨⟨?_, ?_⟩, by rfl⟩
  · simp [IteratorFixed.zip, IteratorFixed.collect, h1l, h2l]
  · intro i x y hx hy
    exact List.getElem?_zip_eq_some.mpr ⟨hx, hy⟩

/-- Witness for C5 at `zip([1,2,3,4], [4,3,2,1])`. -/
theorem zip_pairs_positionally_witness :
    ((RArray.into_iter_fixed (⟨[1, 2, 3, 4], rfl⟩ : RArray Nat 4)).zip
      (RArray.into_iter_fixed (⟨[4, 3, 2, 1], rfl⟩ : RArray Nat 4))).collect.length = 4 :=
  ((zip_pairs_positionally Nat Nat 4 (RArray.into_iter_fixed ⟨[1, 2, 3, 4], rfl⟩)
    (RArray.into_iter_fixed ⟨[4, 3, 2, 1], rfl⟩) (by rfl) (by rfl)).1).1

/-- C6: `zip` of a wrapper of tag `N` with `iter::repeat(v)` bounded to the
matching length `N` produces `N` pairs whose second component is always `v`;
and in particular `zip([1,2,3], repeat(42))` collects to
`[(1,42), (2,42), (3,42)]`. -/
theorem zip_repeat_snd_constant (T R : Type) (N : Nat)
    (w : IteratorFixed T N) (v : R) (h : w.invariant) :
    ((w.zip ((Repeat.mk v).into_iter_fixed N)).collect.length = N ∧
      ∀ p ∈ (w.zip ((Repeat.mk v).into_iter_fixed N)).collect, p.2 = v) ∧
    ((RArray.into_iter_fixed (⟨[1, 2, 3], rfl⟩ : RArray Nat 3)).zip
        ((Repeat.mk 42).into_iter_fixed 3)).collect
      = [(1, 42), (2, 42), (3, 42)] := by
  have hl : w.inner.length = N := h
  refine ⟨⟨?_, ?_⟩, by rfl⟩
  · simp [IteratorFixed.zip, IteratorFixed.collect, Repeat.into_iter_fixed,
      IteratorFixed.from_iter, hl]
  · intro p hp
    exact zip_replicate_snd w.inner N p hp

/-- Witness for C6 at `zip([1,2,3], repeat(42))`. -/
theorem zip_repeat_snd_constant_witness :
    ((RArray.into_iter_fixed (⟨[1, 2, 3], rfl⟩ : RArray Nat 3)).zip
      ((Repeat.mk 42).into_iter_fixed 3)).collect.length = 3 :=
  ((zip_repeat_snd_constant Nat Nat 3 (RArray.into_iter_fixed ⟨[1, 2, 3], rfl⟩)
    42 (by rfl)).1).1

/-- C7: `chain` of a wrapper of tag `N1` with one of tag `N2` produces a
wrapper of tag `N1 + N2` that yields the whole first sequence before the
second; and in particular chaining `[1,2]` then `[3,4]` collects to
`[1,2,3,4]`. -/
theorem chain_concatenates (T : Type) (N1 N2 : Nat)
    (w1 : IteratorFixed T N1) (w2 : IteratorFixed T N2)
    (h1 : w1.invariant) (h2 : w2.invariant) :
    ((w1.chain w2).collect.length = N1 + N2 ∧
      (w1.chain w2).collect = w1.inner ++ w2.inner) ∧
    ((RArray.into_iter_fixed (⟨[1, 2], rfl⟩ : RArray Nat 2)).chain
        (RArray.into_iter_fixed (⟨[3, 4], rfl⟩ : RArray Nat 2))).collect
      = [1, 2, 3, 4] := by
  have h1l : w1.inner.length = N1 := h1
  have h2l : w2.inner.length = N2 := h2
  refine ⟨⟨?_, rfl⟩, by rfl⟩
  simp [IteratorFixed.chain, IteratorFixed.collect, h1l, h2l]

/-- Witness for C7 at `chain([1,2], [3,4])`. -/
theorem chain_concatenates_witness :
    ((RArray.into_iter_fixed (⟨[1, 2], rfl⟩ : RArray Nat 2)).chain
      (RArray.into_iter_fixed (⟨[3, 4], rfl⟩ : RArray Nat 2))).collect.length = 2 + 2 :=
  ((chain_concatenates Nat 2 2 (RArray.into_iter_fixed ⟨[1, 2], rfl⟩)
    (RArray.into_iter_fixed ⟨[3, 4], rfl⟩) (by rfl) (by rfl)).1).1

/-- C8: `step_by` with stride `S ≥ 1` on a wrapper of tag `N` yields exactly
`⌈N / S⌉` elements, keeping the elements at indices `0, S, 2S, …`; and in
particular stepping by 2 over `[1,2,3,4,5]` collects to `[1,3,5]` and over
`[1,2,3,4,5,6,7]` to `[1,3,5,7]`. -/
theorem step_by_keeps_every_sth (T : Type) (N S : Nat)
    (w : IteratorFixed T N) (hS : 1 ≤ S) (h : w.invariant) :
    ((w.step_by S).collect.length = (N + S - 1) / S ∧
      ∀ i : Nat, (w.step_by S).collect[i]? = w.inner[i * S]?) ∧
    ((RArray.into_iter_fixed (⟨[1, 2, 3, 4, 5], rfl⟩ : RArray Nat 5)).step_by 2).collect
        = [1, 3, 5] ∧
    ((RArray.into_iter_fixed (⟨[1, 2, 3, 4, 5, 6, 7], rfl⟩ : RArray Nat 7)).step_by 2).collect
        = [1, 3, 5, 7] := by
  have hl : w.inner.length = N := h
  refine ⟨⟨?_, ?_⟩, by rfl, by rfl⟩
  · have hlen := stepByAux_length S hS w.inner 0
    simp only [IteratorFixed.step_by, IteratorFixed.collect]
    rw [hlen, hl, Nat.sub_zero]
  · intro i
    have hidx := stepByAux_getElem? S hS w.inner 0 i
    simp only [IteratorFixed.step_by, IteratorFixed.collect]
    rw [hidx, Nat.zero_add]

/-- Witness for C8 at stride 2 over `[1,2,3,4,5]`. -/
theorem step_by_keeps_every_sth_witness :
    ((RArray.into_iter_fixed (⟨[1, 2, 3, 4, 5], rfl⟩ : RArray Nat 5)).step_by 2).collect.length
      = (5 + 2 - 1) / 2 :=
  ((step_by_keeps_every_sth Nat 5 2 (RArray.into_iter_fixed ⟨[1, 2, 3, 4, 5], rfl⟩)
    (by decide) (by rfl)).1).1

/-- C9: mapping the mutable-reference wrapper of an array by a closure that
writes the new value `u x` through each reference and returns the old value,
then collecting, yields the array's original contents, while the array
afterwards holds the updated values. -/
theorem mut_map_in_place (T : Type) (N : Nat) (a : RArray T N) (u : T → T) :
    ((a.map_mut fun x => (x, u x)).1).collect = a.data ∧
    ((a.map_mut fun x => (x, u x)).2).data = a.data.map u := by
  constructor
  · exact a.map_get_finRange
  · show (List.finRange N).map (fun i => u (a.get i)) = a.data.map u
    have hc : (fun i => u (a.get i)) = u ∘ a.get := rfl
    rw [hc, ← List.map_map, a.map_get_finRange]

/-- C10: converting a borrowed array yields the `N` shared references
`0..N-1` in index order; dereferencing and collecting them reads back
exactly the array's contents; and the array passes through consumption
unchanged. -/
theorem ref_conversion_frame (T : Type) (N : Nat) (a : RArray T N) :
    (a.into_iter_fixed_ref).inner = List.finRange N ∧
    (a.collect_refs).1 = a.data ∧
    (a.collect_refs).2 = a :=
  ⟨rfl, a.map_get_finRange, rfl⟩

end IterFixed
